import Mathlib

/-!
Verification development for the Sudoku constraint-propagation core found in
`src/python/sudoku.py` and `src/backend/sudoku_ms.py`.

The Python puzzle is a dict mapping the 81 canonical cell keys `"R{r}C{c}"`
(`r, c ∈ 1..9`) to records `{value, candidates}`.  We embed a puzzle as a total
function from `(row, column)` pairs (1-indexed naturals) to cells; the set of
keys actually present in the dict is the concrete list `allPositions` below,
and operations that test dict membership (`cell_ref in puzzle`,
`puzzle.get(...) is None`) are modelled by membership in `allPositions`.
Python-level mutation is modelled by explicit state passing: every mutating
operation returns the updated puzzle, and fallible operations return `Except`.
-/

namespace Sudoku

/-- One cell of the puzzle: a solved digit (`value = some d`) or `none` when
unsolved, together with the list of pencilled-in candidate digits.  Mirrors the
`SudokuCell` pydantic model (`value: Optional[int]`, `candidates: List[int]`). -/
@[ext]
structure Cell where
  value : Option Nat
  candidates : List Nat
deriving Repr, DecidableEq

/-- A cell position `(row, column)`, both 1-indexed as in the Python keys. -/
abbrev Pos := Nat × Nat

/-- A puzzle: total map from positions to cells.  Positions outside
`allPositions` model keys absent from the Python dict and are never read by
in-range operations. -/
abbrev Puzzle := Pos → Cell

/-- Pointwise update of one cell, modelling in-place mutation of one dict entry. -/
def updateCell (p : Puzzle) (pos : Pos) (c : Cell) : Puzzle :=
  fun q => if q = pos then c else p q

/-- The 81 keys present in every puzzle dict, in Python insertion order
(row-major, `R1C1 .. R9C9`). -/
def allPositions : List Pos :=
  (List.range' 1 9).flatMap (fun r => (List.range' 1 9).map (fun c => (r, c)))

/-- Number of unsolved cells of the puzzle. -/
def unsolvedCount (p : Puzzle) : Nat :=
  allPositions.countP (fun pos => decide ((p pos).value = none))

/-- A puzzle with all 81 cells unsolved and no candidates (the state produced
by the loader for a blank grid). -/
def emptyPuzzle : Puzzle := fun _ => { value := none, candidates := [] }

/-! ## Grid geometry (`get_units_for_cell`, position level)

`get_units_for_cell` builds, for a cell, the key lists of its row, column and
block units; `assign_digit`/`compute_candidates` then iterate
`units.values()` in dict insertion order: row, then column, then block. -/

/-- The row unit of a position: `[f"R{row}C{c}" for c in range(1, 10)]`. -/
def rowCells (pos : Pos) : List Pos :=
  (List.range' 1 9).map (fun c => (pos.1, c))

/-- The column unit of a position: `[f"R{r}C{col}" for r in range(1, 10)]`. -/
def colCells (pos : Pos) : List Pos :=
  (List.range' 1 9).map (fun r => (r, pos.2))

/-- The 3×3 block unit of a position, row-major from its top-left corner
`row_start = (row-1)//3*3 + 1`, `col_start = (col-1)//3*3 + 1`.  For in-range
rows/columns (1..9) natural `-`/`/` agree with Python's `//`. -/
def blockCells (pos : Pos) : List Pos :=
  let rs := (pos.1 - 1) / 3 * 3 + 1
  let cs := (pos.2 - 1) / 3 * 3 + 1
  (List.range' rs 3).flatMap (fun r => (List.range' cs 3).map (fun c => (r, c)))

/-- All unit members of a cell in the order the Python loops visit them
(`for unit in units.values(): for peer in unit:`): row ++ column ++ block.
The cell itself occurs in each of the three sublists, exactly as in the source. -/
def unitsForPos (pos : Pos) : List Pos :=
  rowCells pos ++ colCells pos ++ blockCells pos

/-! ## Candidate engine (`compute_candidates`)

The Python loop mutates only `candidates` fields and reads only `value`
fields, so the sequential in-place sweep is equivalent to this simultaneous
pointwise recomputation. -/

/-- `compute_candidates`: a solved cell's candidates are forced to `[]`; an
unsolved cell's candidates become the digits `1..9` that no cell of its row,
column or block holds as a solved value. -/
def computeCandidates (p : Puzzle) : Puzzle := fun pos =>
  match (p pos).value with
  | some v => { value := some v, candidates := [] }
  | none =>
      { value := none,
        candidates :=
          (List.range' 1 9).filter
            (fun d => !((unitsForPos pos).any
              (fun peer => decide ((p peer).value = some d)))) }

/-! ## Mutation engine (`assign_digit`, `eliminate_digit`) -/

/-- The failure conditions raised (as `ValueError` / `IndexError`) by the
Python core, plus `fuelExhausted` for the explicit recursion-depth bound used
to embed the self-recursive cascade (proved unreachable at depth 81). -/
inductive SudokuError where
  | cellNotFound
  | alreadySolved
  | notACandidate
  | cannotEliminateSolved
  | invalidCellRef
  | invalidUnitRef
  | badUnitTag
  | indexError
  | fuelExhausted
deriving Repr, DecidableEq

/-- The peer-elimination loop of `assign_digit`, parametrised by the recursive
assignment function applied to cascading peers.  Walks the unit members in
source order; for each unsolved peer still holding `digit`, removes the first
occurrence (`list.remove`), and when exactly one candidate remains, cascades by
assigning that sole candidate. -/
def elimPeersWith (assignF : Puzzle → Pos → Nat → Except SudokuError Puzzle) :
    Puzzle → Pos → List Pos → Nat → Except SudokuError Puzzle
  | p, _, [], _ => .ok p
  | p, pos, peer :: rest, digit =>
    if peer = pos then
      elimPeersWith assignF p pos rest digit
    else
      match (p peer).value with
      | some _ => elimPeersWith assignF p pos rest digit
      | none =>
        if digit ∈ (p peer).candidates then
          match (p peer).candidates.erase digit with
          | [sole] =>
            match assignF (updateCell p peer { value := none, candidates := [sole] })
                peer sole with
            | .ok q2 => elimPeersWith assignF q2 pos rest digit
            | .error e => .error e
          | newCands =>
            elimPeersWith assignF
              (updateCell p peer { value := none, candidates := newCands }) pos rest digit
        else
          elimPeersWith assignF p pos rest digit

/-- `assign_digit`, with an explicit bound on cascade depth.  Checks the cell
is present, unsolved, and holds `digit` as a candidate; then solves it,
clears its candidates, and runs the peer-elimination cascade. -/
def assignDigitFuel : Nat → Puzzle → Pos → Nat → Except SudokuError Puzzle
  | 0, _, _, _ => .error .fuelExhausted
  | fuel + 1, p, pos, digit =>
    if pos ∈ allPositions then
      match (p pos).value with
      | some _ => .error .alreadySolved
      | none =>
        if digit ∈ (p pos).candidates then
          elimPeersWith (assignDigitFuel fuel)
            (updateCell p pos { value := some digit, candidates := [] })
            pos (unitsForPos pos) digit
        else .error .notACandidate
    else .error .cellNotFound

/-- `assign_digit` at depth bound 81: each recursive cascade step newly solves
one of the at most 81 cells, so (as proved below) the bound is never hit. -/
def assign_digit (p : Puzzle) (pos : Pos) (digit : Nat) : Except SudokuError Puzzle :=
  assignDigitFuel 81 p pos digit

/-- `eliminate_digit` as in `src/python/sudoku.py`: remove the digit from an
unsolved cell's candidates if present, otherwise a silent no-op.  This copy
performs no cascade. -/
def eliminate_digit (p : Puzzle) (pos : Pos) (digit : Nat) : Except SudokuError Puzzle :=
  if pos ∈ allPositions then
    match (p pos).value with
    | some _ => .error .cannotEliminateSolved
    | none =>
      if digit ∈ (p pos).candidates then
        .ok (updateCell p pos
          { value := none, candidates := (p pos).candidates.erase digit })
      else .ok p
  else .error .cellNotFound

/-- `eliminate_digit` as in `src/backend/sudoku_ms.py`: same removal, but if
exactly one candidate remains afterwards, that sole candidate is assigned
(with the full cascade of `assign_digit`). -/
def eliminate_digit_ms (p : Puzzle) (pos : Pos) (digit : Nat) : Except SudokuError Puzzle :=
  if pos ∈ allPositions then
    match (p pos).value with
    | some _ => .error .cannotEliminateSolved
    | none =>
      if digit ∈ (p pos).candidates then
        match (p pos).candidates.erase digit with
        | [sole] =>
          assign_digit (updateCell p pos { value := none, candidates := [sole] }) pos sole
        | newCands => .ok (updateCell p pos { value := none, candidates := newCands })
      else .ok p
  else .error .cellNotFound

/-! ## `scan_and_assign` -/

/-- One sweep of `scan_and_assign`'s inner `for` loop over the listed cells:
any unsolved cell with exactly one candidate is assigned; the `progress` flag
records whether any assignment happened this sweep. -/
def sweepCells : Puzzle → List Pos → Bool → Except SudokuError (Puzzle × Bool)
  | p, [], progress => .ok (p, progress)
  | p, pos :: rest, progress =>
    match (p pos).value, (p pos).candidates with
    | none, [c] =>
      match assign_digit p pos c with
      | .ok q => sweepCells q rest true
      | .error e => .error e
    | _, _ => sweepCells p rest progress

/-- The `while progress:` loop of `scan_and_assign`, with an explicit sweep
bound (each progressing sweep solves at least one of ≤ 81 cells, so 82 sweeps
always suffice). -/
def scanLoop : Nat → Puzzle → Except SudokuError Puzzle
  | 0, _ => .error .fuelExhausted
  | n + 1, p =>
    match sweepCells p allPositions false with
    | .error e => .error e
    | .ok (q, false) => .ok q
    | .ok (q, true) => scanLoop n q

/-- `scan_and_assign`: repeat full sweeps until one makes no progress. -/
def scan_and_assign (p : Puzzle) : Except SudokuError Puzzle :=
  scanLoop 82 p

/-! ## String-level cell references (`get_units_for_cell`)

`get_units_for_cell` matches `re.match(r"R(\d+)C(\d+)", cell_ref)`: anchored
at the start only, with multi-digit groups and an arbitrary ignored suffix.
Since a digit never equals `C`, the greedy `\d+` groups are exactly the
maximal digit runs, which the parser below reproduces.  (`\d` is modelled as
the ASCII digits; no caller uses non-ASCII digits.) -/

/-- Splits off the maximal leading run of ASCII digits. -/
def takeDigits : List Char → List Char × List Char
  | [] => ([], [])
  | ch :: rest =>
    if ch.isDigit then
      let s := takeDigits rest
      (ch :: s.1, s.2)
    else ([], ch :: rest)

/-- Numeric value of a digit run, as computed by Python `int` on the group. -/
def digitsToNat (l : List Char) : Nat :=
  l.foldl (fun acc ch => acc * 10 + (ch.toNat - '0'.toNat)) 0

/-- `re.match(r"R(\d+)C(\d+)", s)`: `none` when the pattern does not match at
the start of the string, otherwise the two numeric groups (the maximal digit
runs, matching the greedy `\d+`; the remaining suffix is ignored because the
pattern is unanchored on the right). -/
def matchCellRef (l : List Char) : Option (Nat × Nat) :=
  match l with
  | [] => none
  | ch :: rest =>
    if ch = 'R' then
      if (takeDigits rest).1 = [] then none
      else
        match (takeDigits rest).2 with
        | [] => none
        | ch2 :: rest2 =>
          if ch2 = 'C' then
            if (takeDigits rest2).1 = [] then none
            else some (digitsToNat (takeDigits rest).1, digitsToNat (takeDigits rest2).1)
          else none
    else none

/-- The key string `f"R{r}C{c}"`.  Indices are `Int` because Python's block
arithmetic can produce negative coordinates for out-of-range inputs. -/
def cellKey (r c : Int) : String :=
  "R" ++ toString r ++ "C" ++ toString c

/-- The three key lists returned by `get_units_for_cell`, in dict insertion
order: `row`, `col`, `block`. -/
structure CellUnits where
  row : List String
  col : List String
  block : List String
deriving Repr, DecidableEq

/-- `get_units_for_cell`: parse the reference with the unanchored-suffix regex
and build the row, column, and block key lists.  Block arithmetic uses
Python's floor division on possibly-negative intermediate values. -/
def get_units_for_cell (cell_ref : String) : Except SudokuError CellUnits :=
  match matchCellRef cell_ref.data with
  | none => .error .invalidCellRef
  | some (row_num, col_num) =>
    let rn : Int := row_num
    let cn : Int := col_num
    let row_start : Int := (rn - 1).fdiv 3 * 3 + 1
    let col_start : Int := (cn - 1).fdiv 3 * 3 + 1
    .ok
      { row := (List.range' 1 9).map (fun c => cellKey rn c),
        col := (List.range' 1 9).map (fun r => cellKey r cn),
        block :=
          (List.range 3).flatMap (fun i =>
            (List.range 3).map (fun j => cellKey (row_start + i) (col_start + j))) }

/-! ## String-level unit extraction (`get_unit`) -/

/-- Dict-key membership for the canonical 81-key puzzle: a string is a key of
the puzzle dict exactly when it has the exact shape `R<1-9>C<1-9>`; in that
case this returns the `(row, column)` position it denotes. -/
def parseCanonicalKey (s : String) : Option Pos :=
  match s.data with
  | ['R', r, 'C', c] =>
    if '1' ≤ r ∧ r ≤ '9' ∧ '1' ≤ c ∧ c ≤ '9' then
      some (r.toNat - '0'.toNat, c.toNat - '0'.toNat)
    else none
  | _ => none

/-- Python `int(s)` on the index substring: optional sign followed by one or
more digits.  (Surrounding whitespace and underscore separators, which Python
also accepts, are not modelled; no caller in the repository produces them.) -/
def pyToInt? (s : List Char) : Option Int :=
  match s with
  | '-' :: rest =>
    if rest ≠ [] ∧ rest.all Char.isDigit then some (-(digitsToNat rest : Int)) else none
  | '+' :: rest =>
    if rest ≠ [] ∧ rest.all Char.isDigit then some ((digitsToNat rest : Int)) else none
  | _ =>
    if s ≠ [] ∧ s.all Char.isDigit then some ((digitsToNat s : Int)) else none

/-- The dict comprehension `{k: puzzle[k] for k in keys if k in puzzle}`:
keeps, in key order, the generated keys that are actual puzzle keys, paired
with their cells. -/
def selectPresent (p : Puzzle) (keys : List String) : List (String × Cell) :=
  keys.filterMap (fun k => (parseCanonicalKey k).map (fun pos => (k, p pos)))

/-- `get_unit`: first char (uppercased) is the unit tag, the rest is parsed by
`int`; tag `R`/`C`/`B` selects the key list (block corner via Python floor
division and modulo), any other tag fails; a too-short or non-numeric index
substring fails at `int`; an empty reference raises `IndexError` at
`unit_ref[0]`.  Out-of-range indices produce keys absent from the puzzle,
which the membership filter silently drops. -/
def get_unit (p : Puzzle) (unit_ref : String) : Except SudokuError (List (String × Cell)) :=
  match unit_ref.data with
  | [] => .error .indexError
  | ch :: rest =>
    match pyToInt? rest with
    | none => .error .invalidUnitRef
    | some index =>
      let tag := ch.toUpper
      if tag = 'R' then
        .ok (selectPresent p ((List.range' 1 9).map (fun c => cellKey index c)))
      else if tag = 'C' then
        .ok (selectPresent p ((List.range' 1 9).map (fun r => cellKey r index)))
      else if tag = 'B' then
        let row_start : Int := (index - 1).fdiv 3 * 3 + 1
        let col_start : Int := (index - 1).emod 3 * 3 + 1
        .ok (selectPresent p
          ((List.range 3).flatMap (fun i =>
            (List.range 3).map (fun j => cellKey (row_start + i) (col_start + j)))))
      else .error .badUnitTag

/-! ## Consistency checkers

Both checkers iterate the 27 unit references `R1..R9, C1..C9, B1..B9` and
fetch each unit through `get_unit`; for these references `get_unit` always
returns exactly the 9 member cells, which the position-level unit lists below
reproduce (same construction, same order). -/

/-- Row unit `"R{i}"` as positions, in `get_unit` key order. -/
def rowUnit (i : Nat) : List Pos :=
  (List.range' 1 9).map (fun c => (i, c))

/-- Column unit `"C{i}"` as positions, in `get_unit` key order. -/
def colUnit (i : Nat) : List Pos :=
  (List.range' 1 9).map (fun r => (r, i))

/-- Block unit `"B{i}"` as positions: corner `row_start = (i-1)//3*3 + 1`,
`col_start = (i-1)%3*3 + 1`, enumerated row-major. -/
def blockUnit (i : Nat) : List Pos :=
  let rs := (i - 1) / 3 * 3 + 1
  let cs := (i - 1) % 3 * 3 + 1
  (List.range' rs 3).flatMap (fun r => (List.range' cs 3).map (fun c => (r, c)))

/-- The 27 units visited by the checkers, in source order
(`R1..R9, C1..C9, B1..B9`). -/
def allUnitCellSets : List (List Pos) :=
  (List.range' 1 9).map rowUnit ++
  (List.range' 1 9).map colUnit ++
  (List.range' 1 9).map blockUnit

/-- The `seen`-dict scan of `check_strict_consistency` over one unit: walk
the cells, record solved digits, and fail at the first digit seen twice. -/
def unitNoDupSolved (p : Puzzle) : List Pos → List Nat → Bool
  | [], _ => true
  | pos :: rest, seen =>
    match (p pos).value with
    | some d => if d ∈ seen then false else unitNoDupSolved p rest (d :: seen)
    | none => unitNoDupSolved p rest seen

/-- `check_strict_consistency`: in every unit, no solved digit appears more
than once. -/
def check_strict_consistency (p : Puzzle) : Bool :=
  allUnitCellSets.all (fun u => unitNoDupSolved p u [])

/-- `check_candidate_consistency`: in every unit, every digit `1..9` is either
solved in the unit or pencilled in some unsolved member's candidate list. -/
def check_candidate_consistency (p : Puzzle) : Bool :=
  allUnitCellSets.all (fun u =>
    (List.range' 1 9).all (fun d =>
      decide (d ∈ u.filterMap (fun pos => (p pos).value)) ||
      u.any (fun pos => decide ((p pos).value = none ∧ d ∈ (p pos).candidates))))

/-! ## Invariant predicates and specification-side descriptions -/

/-- Every cell solved in `p` is still solved (with the same digit) in `p'`. -/
def solvedPreserved (p p' : Puzzle) : Prop :=
  ∀ q d, (p q).value = some d → (p' q).value = some d

/-- The spec's cell-state invariant: a Solved cell's candidate set is empty. -/
def SolvedEmpty (p : Puzzle) : Prop :=
  ∀ pos ∈ allPositions, (p pos).value ≠ none → (p pos).candidates = []

/-- Modelled from the spec: the exact cell-reference grammar `R<1-9>C<1-9>`
(§6), as a predicate on strings — used to compare the spec's stated failure
condition for `get_units_for_cell` with the code's actual regex. -/
def ExactCellRefShape (s : String) : Prop :=
  (parseCanonicalKey s).isSome = true

/-- The set of strings the source regex `re.match(r"R(\d+)C(\d+)", s)`
accepts: an `R`, a nonempty digit run, a `C`, a nonempty digit run, and an
arbitrary (ignored) suffix. -/
def CellRefPat (s : String) : Prop :=
  ∃ ds1 ds2 rest, s.data = 'R' :: (ds1 ++ 'C' :: (ds2 ++ rest)) ∧
    ds1 ≠ [] ∧ ds2 ≠ [] ∧
    (∀ ch ∈ ds1, ch.isDigit = true) ∧ (∀ ch ∈ ds2, ch.isDigit = true)

instance {ε α : Type} [DecidableEq ε] [DecidableEq α] : DecidableEq (Except ε α) :=
  fun a b =>
    match a, b with
    | .ok x, .ok y =>
      if h : x = y then .isTrue (by rw [h]) else .isFalse (by intro hc; cases hc; exact h rfl)
    | .error x, .error y =>
      if h : x = y then .isTrue (by rw [h]) else .isFalse (by intro hc; cases hc; exact h rfl)
    | .ok _, .error _ => .isFalse (by intro hc; cases hc)
    | .error _, .ok _ => .isFalse (by intro hc; cases hc)

/-! ## Concrete example puzzles used as test vectors -/

/-- A fully and correctly solved grid: the canonical valid Sudoku with digit
`((r-1)*3 + (r-1)/3 + (c-1)) % 9 + 1` at `(r, c)`. -/
def solvedGrid : Puzzle := fun pos =>
  if pos ∈ allPositions then
    { value := some (((pos.1 - 1) * 3 + (pos.1 - 1) / 3 + (pos.2 - 1)) % 9 + 1),
      candidates := [] }
  else { value := none, candidates := [] }

/-- A grid with two `5`s in row 1 (cells `R1C1` and `R1C2`), otherwise blank. -/
def twoFivesGrid : Puzzle := fun pos =>
  if pos = ((1 : Nat), (1 : Nat)) ∨ pos = ((1 : Nat), (2 : Nat)) then
    { value := some 5, candidates := [] }
  else { value := none, candidates := [] }

/-- A puzzle whose cell `R1C1` is unsolved with candidates `[1, 2]`, all other
cells unsolved with no candidates. -/
def elimTwoPuzzle : Puzzle := fun pos =>
  if pos = ((1 : Nat), (1 : Nat)) then { value := none, candidates := [1, 2] }
  else { value := none, candidates := [] }

/-- A puzzle whose cell `R1C1` is unsolved with the single candidate `5`, all
other cells unsolved with no candidates. -/
def singleCandPuzzle : Puzzle := fun pos =>
  if pos = ((1 : Nat), (1 : Nat)) then { value := none, candidates := [5] }
  else { value := none, candidates := [] }

/-! ## Basic lemmas: positions, updates, unsolved-cell counting -/

theorem mem_allPositions {pos : Pos} :
    pos ∈ allPositions ↔ 1 ≤ pos.1 ∧ pos.1 ≤ 9 ∧ 1 ≤ pos.2 ∧ pos.2 ≤ 9 := by
  obtain ⟨r, c⟩ := pos
  simp only [allPositions, List.mem_flatMap, List.mem_map, List.mem_range'_1]
  constructor
  · rintro ⟨a, ha, b, hb, heq⟩
    obtain ⟨rfl, rfl⟩ := Prod.mk.injEq .. ▸ heq
    · exact ⟨ha.1, by omega, hb.1, by omega⟩
  · rintro ⟨h1, h2, h3, h4⟩
    exact ⟨r, ⟨h1, by omega⟩, c, ⟨h3, by omega⟩, rfl⟩

theorem unitsForPos_subset {pos : Pos} (hmem : pos ∈ allPositions) :
    ∀ q ∈ unitsForPos pos, q ∈ allPositions := by
  obtain ⟨r, c⟩ := pos
  rw [mem_allPositions] at hmem
  intro q hq
  rw [mem_allPositions]
  simp only [unitsForPos, rowCells, colCells, blockCells, List.mem_append,
    List.mem_map, List.mem_flatMap, List.mem_range'_1] at hq
  rcases hq with (⟨a, ha, rfl⟩ | ⟨a, ha, rfl⟩) | ⟨a, ha, b, hb, rfl⟩
  · exact ⟨by omega, by omega, by omega, by omega⟩
  · exact ⟨by omega, by omega, by omega, by omega⟩
  · refine ⟨by omega, ?_, by omega, ?_⟩ <;> omega

theorem updateCell_same (p : Puzzle) (pos : Pos) (c : Cell) :
    updateCell p pos c pos = c := by
  simp [updateCell]

theorem updateCell_other (p : Puzzle) (pos : Pos) (c : Cell) {q : Pos} (h : q ≠ pos) :
    updateCell p pos c q = p q := by
  simp [updateCell, h]

theorem solvedPreserved_refl (p : Puzzle) : solvedPreserved p p :=
  fun _ _ h => h

theorem solvedPreserved_trans {p q r : Puzzle}
    (h1 : solvedPreserved p q) (h2 : solvedPreserved q r) : solvedPreserved p r :=
  fun pos d h => h2 pos d (h1 pos d h)

theorem solvedPreserved_updateUnsolved {p : Puzzle} {pos : Pos}
    (hv : (p pos).value = none) (c : Cell) :
    solvedPreserved p (updateCell p pos c) := by
  intro q d h
  by_cases hq : q = pos
  · subst hq; rw [hv] at h; cases h
  · rwa [updateCell_other p pos c hq]

theorem solvedEmpty_updateUnsolvedCands {p : Puzzle} {pos : Pos} {cands : List Nat}
    (hSE : SolvedEmpty p) :
    SolvedEmpty (updateCell p pos { value := none, candidates := cands }) := by
  intro q hq h
  by_cases hqp : q = pos
  · subst hqp; rw [updateCell_same] at h; exact absurd rfl h
  · rw [updateCell_other p pos _ hqp] at h ⊢
    exact hSE q hq h

theorem solvedEmpty_updateSolvedEmptyCands {p : Puzzle} {pos : Pos} {d0 : Nat}
    (hSE : SolvedEmpty p) :
    SolvedEmpty (updateCell p pos { value := some d0, candidates := [] }) := by
  intro q hq h
  by_cases hqp : q = pos
  · subst hqp; rw [updateCell_same]
  · rw [updateCell_other p pos _ hqp] at h ⊢
    exact hSE q hq h

/-- Bookkeeping for strict decrease: if `g` is pointwise below `f` on `l` and
flips from true to false at some member, the count strictly drops. -/
theorem countP_lt_of_flip {α : Type} (l : List α) (f g : α → Bool) (a : α)
    (ha : a ∈ l) (hf : f a = true) (hg : g a = false)
    (hmono : ∀ x ∈ l, g x = true → f x = true) :
    l.countP g < l.countP f := by
  induction l with
  | nil => cases ha
  | cons b t ih =>
    rw [List.countP_cons, List.countP_cons]
    rcases List.mem_cons.mp ha with rfl | hat
    · rw [hf, hg]
      have hle : t.countP g ≤ t.countP f :=
        List.countP_mono_left (fun x hx => hmono x (List.mem_cons_of_mem _ hx))
      simp
      omega
    · have hlt := ih hat (fun x hx => hmono x (List.mem_cons_of_mem _ hx))
      by_cases hgb : g b = true
      · rw [hgb, hmono b (List.mem_cons_self _ _) hgb]
        simpa using hlt
      · rw [Bool.not_eq_true] at hgb
        rw [hgb]
        rcases hfb : f b <;> simp <;> omega

theorem unsolvedCount_le_of_preserved {p p' : Puzzle} (h : solvedPreserved p p') :
    unsolvedCount p' ≤ unsolvedCount p := by
  apply List.countP_mono_left
  intro q _ hq'
  simp only [decide_eq_true_eq] at hq' ⊢
  cases hv : (p q).value with
  | none => rfl
  | some d => rw [h q d hv] at hq'; cases hq'

theorem unsolvedCount_update_solved {p : Puzzle} {pos : Pos} {c : Cell} {d : Nat}
    (hmem : pos ∈ allPositions) (hv : (p pos).value = none) (hc : c.value = some d) :
    unsolvedCount (updateCell p pos c) < unsolvedCount p := by
  apply countP_lt_of_flip allPositions _ _ pos hmem
  · simp [hv]
  · simp [updateCell_same, hc]
  · intro x _ hx
    by_cases hxp : x = pos
    · subst hxp; rw [updateCell_same] at hx; simp [hc] at hx
    · rwa [updateCell_other p pos c hxp] at hx

theorem unsolvedCount_congr {p p' : Puzzle} (h : ∀ q, (p' q).value = (p q).value) :
    unsolvedCount p' = unsolvedCount p := by
  unfold unsolvedCount
  apply Nat.le_antisymm <;> apply List.countP_mono_left <;> intro q _ hq <;>
    simp only [decide_eq_true_eq, h] at hq ⊢ <;> exact hq

theorem one_le_unsolvedCount {p : Puzzle} {pos : Pos}
    (hmem : pos ∈ allPositions) (hv : (p pos).value = none) :
    1 ≤ unsolvedCount p :=
  List.countP_pos_iff.mpr ⟨pos, hmem, by simp [hv]⟩

theorem unsolvedCount_le_81 (p : Puzzle) : unsolvedCount p ≤ 81 := by
  have h : unsolvedCount p ≤ allPositions.length := List.countP_le_length _
  exact Nat.le_trans h (by decide)

theorem unsolvedCount_update_cands {p : Puzzle} {pos : Pos} (cands : List Nat)
    (hv : (p pos).value = none) :
    unsolvedCount (updateCell p pos { value := none, candidates := cands }) =
      unsolvedCount p := by
  apply unsolvedCount_congr
  intro x
  by_cases hx : x = pos
  · subst hx; rw [updateCell_same, hv]
  · rw [updateCell_other _ _ _ hx]

/-! ## The assignment cascade: preserved invariants and guaranteed success -/

theorem elimPeersWith_props (assignF : Puzzle → Pos → Nat → Except SudokuError Puzzle)
    (hA : ∀ q pr d q', assignF q pr d = .ok q' →
      solvedPreserved q q' ∧ (SolvedEmpty q → SolvedEmpty q')) :
    ∀ (l : List Pos) (p : Puzzle) (pos : Pos) (d : Nat) (p' : Puzzle),
      elimPeersWith assignF p pos l d = .ok p' →
      solvedPreserved p p' ∧ (SolvedEmpty p → SolvedEmpty p') := by
  intro l
  induction l with
  | nil =>
    intro p pos d p' h
    simp only [elimPeersWith] at h
    cases h
    exact ⟨solvedPreserved_refl p, id⟩
  | cons peer rest ih =>
    intro p pos d p' h
    by_cases hpp : peer = pos
    · simp only [elimPeersWith, hpp, if_true, if_pos] at h
      exact ih p pos d p' h
    · cases hv : (p peer).value with
      | some v =>
        simp only [elimPeersWith, hpp, if_false, if_neg, not_false_iff, hv] at h
        exact ih p pos d p' h
      | none =>
        by_cases hd : d ∈ (p peer).candidates
        · rcases hE : (p peer).candidates.erase d with _ | ⟨sole, _ | ⟨s2, t⟩⟩
          · simp [elimPeersWith, hpp, hv, hd, hE] at h
            have hrest := ih _ _ _ _ h
            exact ⟨solvedPreserved_trans (solvedPreserved_updateUnsolved hv _) hrest.1,
              fun hSE => hrest.2 (solvedEmpty_updateUnsolvedCands hSE)⟩
          · simp [elimPeersWith, hpp, hv, hd, hE] at h
            cases hfq : assignF (updateCell p peer { value := none, candidates := [sole] })
                peer sole with
            | ok q2 =>
              rw [hfq] at h
              simp at h
              have hprops := hA _ _ _ _ hfq
              have hrest := ih _ _ _ _ h
              refine ⟨solvedPreserved_trans (solvedPreserved_updateUnsolved hv _)
                  (solvedPreserved_trans hprops.1 hrest.1), fun hSE => ?_⟩
              exact hrest.2 (hprops.2 (solvedEmpty_updateUnsolvedCands hSE))
            | error e =>
              rw [hfq] at h
              simp at h
          · simp [elimPeersWith, hpp, hv, hd, hE] at h
            have hrest := ih _ _ _ _ h
            exact ⟨solvedPreserved_trans (solvedPreserved_updateUnsolved hv _) hrest.1,
              fun hSE => hrest.2 (solvedEmpty_updateUnsolvedCands hSE)⟩
        · simp [elimPeersWith, hpp, hv, hd] at h
          exact ih p pos d p' h

theorem elimPeersWith_ok (assignF : Puzzle → Pos → Nat → Except SudokuError Puzzle)
    (bound : Nat)
    (hOk : ∀ q pr d, pr ∈ allPositions → (q pr).value = none →
      d ∈ (q pr).candidates → unsolvedCount q ≤ bound → ∃ q', assignF q pr d = .ok q')
    (hLe : ∀ q pr d q', assignF q pr d = .ok q' → unsolvedCount q' ≤ unsolvedCount q) :
    ∀ (l : List Pos) (p : Puzzle) (pos : Pos) (d : Nat),
      unsolvedCount p ≤ bound → (∀ x ∈ l, x ∈ allPositions) →
      ∃ p', elimPeersWith assignF p pos l d = .ok p' ∧
        unsolvedCount p' ≤ unsolvedCount p := by
  intro l
  induction l with
  | nil =>
    intro p pos d _ _
    exact ⟨p, rfl, Nat.le_refl _⟩
  | cons peer rest ih =>
    intro p pos d hc hl
    have hlrest : ∀ x ∈ rest, x ∈ allPositions :=
      fun x hx => hl x (List.mem_cons_of_mem _ hx)
    by_cases hpp : peer = pos
    · obtain ⟨p', hp', hle⟩ := ih p pos d hc hlrest
      exact ⟨p', by simp [elimPeersWith, hpp, hp'], hle⟩
    · cases hv : (p peer).value with
      | some v =>
        obtain ⟨p', hp', hle⟩ := ih p pos d hc hlrest
        exact ⟨p', by simp [elimPeersWith, hpp, hv, hp'], hle⟩
      | none =>
        by_cases hd : d ∈ (p peer).candidates
        · rcases hE : (p peer).candidates.erase d with _ | ⟨sole, _ | ⟨s2, t⟩⟩
          · -- erased to []: no cascade, recurse on the updated puzzle
            have hcount := unsolvedCount_update_cands ([] : List Nat) hv
            obtain ⟨p', hp', hle⟩ := ih
              (updateCell p peer { value := none, candidates := [] }) pos d
              (by rw [hcount]; exact hc) hlrest
            exact ⟨p', by simp [elimPeersWith, hpp, hv, hd, hE, hp'],
              by rw [hcount] at hle; exact hle⟩
          · -- erased to a single candidate: the cascade assigns it
            have hcount := unsolvedCount_update_cands [sole] hv
            have hpm : peer ∈ allPositions := hl peer (List.mem_cons_self _ _)
            obtain ⟨q2, hq2⟩ := hOk
              (updateCell p peer { value := none, candidates := [sole] }) peer sole
              hpm (by rw [updateCell_same]) (by rw [updateCell_same]; exact List.mem_singleton_self _)
              (by rw [hcount]; exact hc)
            have hle2 : unsolvedCount q2 ≤ unsolvedCount p := by
              have := hLe _ _ _ _ hq2
              omega
            obtain ⟨p', hp', hle⟩ := ih q2 pos d (Nat.le_trans hle2 hc) hlrest
            exact ⟨p', by simp [elimPeersWith, hpp, hv, hd, hE, hq2, hp'],
              Nat.le_trans hle hle2⟩
          · -- two or more candidates remain: recurse on the updated puzzle
            have hcount := unsolvedCount_update_cands (sole :: s2 :: t) hv
            obtain ⟨p', hp', hle⟩ := ih
              (updateCell p peer { value := none, candidates := sole :: s2 :: t }) pos d
              (by rw [hcount]; exact hc) hlrest
            exact ⟨p', by simp [elimPeersWith, hpp, hv, hd, hE, hp'],
              by rw [hcount] at hle; exact hle⟩
        · obtain ⟨p', hp', hle⟩ := ih p pos d hc hlrest
          exact ⟨p', by simp [elimPeersWith, hpp, hv, hd, hp'], hle⟩

theorem assignDigitFuel_props :
    ∀ (fuel : Nat) (p : Puzzle) (pos : Pos) (digit : Nat) (p' : Puzzle),
      assignDigitFuel fuel p pos digit = .ok p' →
      solvedPreserved p p' ∧ (SolvedEmpty p → SolvedEmpty p') ∧
      (p pos).value = none ∧ (p' pos).value = some digit ∧
      unsolvedCount p' < unsolvedCount p := by
  intro fuel
  induction fuel with
  | zero =>
    intro p pos digit p' h
    simp [assignDigitFuel] at h
  | succ fuel ih =>
    intro p pos digit p' h
    by_cases hmem : pos ∈ allPositions
    · cases hv : (p pos).value with
      | some v => simp [assignDigitFuel, hmem, hv] at h
      | none =>
        by_cases hd : digit ∈ (p pos).candidates
        · simp [assignDigitFuel, hmem, hv, hd] at h
          have hElim := elimPeersWith_props (assignDigitFuel fuel)
            (fun q pr d q' hq => ⟨(ih q pr d q' hq).1, (ih q pr d q' hq).2.1⟩)
            (unitsForPos pos) _ pos digit p' h
          have hsp1 : solvedPreserved p
              (updateCell p pos { value := some digit, candidates := [] }) :=
            solvedPreserved_updateUnsolved hv _
          refine ⟨solvedPreserved_trans hsp1 hElim.1,
            fun hSE => hElim.2 (solvedEmpty_updateSolvedEmptyCands hSE), rfl,
            hElim.1 pos digit (by rw [updateCell_same]), ?_⟩
          have h1 : unsolvedCount (updateCell p pos { value := some digit, candidates := [] }) <
              unsolvedCount p :=
            unsolvedCount_update_solved hmem hv rfl
          exact Nat.lt_of_le_of_lt (unsolvedCount_le_of_preserved hElim.1) h1
        · simp [assignDigitFuel, hmem, hv, hd] at h
    · simp [assignDigitFuel, hmem] at h

theorem assignDigitFuel_ok :
    ∀ (fuel : Nat) (p : Puzzle) (pos : Pos) (digit : Nat),
      pos ∈ allPositions → (p pos).value = none → digit ∈ (p pos).candidates →
      unsolvedCount p ≤ fuel → ∃ p', assignDigitFuel fuel p pos digit = .ok p' := by
  intro fuel
  induction fuel with
  | zero =>
    intro p pos digit hmem hv _ hc
    exact absurd (one_le_unsolvedCount hmem hv) (by omega)
  | succ fuel ih =>
    intro p pos digit hmem hv hd hc
    have hcount1 : unsolvedCount (updateCell p pos { value := some digit, candidates := [] }) <
        unsolvedCount p :=
      unsolvedCount_update_solved hmem hv rfl
    obtain ⟨p', hp', _⟩ := elimPeersWith_ok (assignDigitFuel fuel) fuel
      (fun q pr d hm hv' hd' hc' => ih q pr d hm hv' hd' hc')
      (fun q pr d q' hq => Nat.le_of_lt (assignDigitFuel_props fuel q pr d q' hq).2.2.2.2)
      (unitsForPos pos) (updateCell p pos { value := some digit, candidates := [] })
      pos digit (by omega) (unitsForPos_subset hmem)
    exact ⟨p', by simp [assignDigitFuel, hmem, hv, hd, hp']⟩

theorem assign_digit_props {p : Puzzle} {pos : Pos} {digit : Nat} {p' : Puzzle}
    (h : assign_digit p pos digit = .ok p') :
    solvedPreserved p p' ∧ (SolvedEmpty p → SolvedEmpty p') ∧
    (p pos).value = none ∧ (p' pos).value = some digit ∧
    unsolvedCount p' < unsolvedCount p :=
  assignDigitFuel_props 81 p pos digit p' h

theorem sweepCells_solvedEmpty :
    ∀ (l : List Pos) (p : Puzzle) (prog : Bool) (q : Puzzle) (b : Bool),
      sweepCells p l prog = .ok (q, b) → SolvedEmpty p → SolvedEmpty q := by
  intro l
  induction l with
  | nil =>
    intro p prog q b h hSE
    simp only [sweepCells] at h
    cases h
    exact hSE
  | cons pos rest ih =>
    intro p prog q b h hSE
    cases hv : (p pos).value with
    | some v =>
      simp only [sweepCells, hv] at h
      exact ih p prog q b h hSE
    | none =>
      rcases hc : (p pos).candidates with _ | ⟨c, _ | ⟨c2, t⟩⟩
      · simp only [sweepCells, hv, hc] at h
        exact ih p prog q b h hSE
      · simp only [sweepCells, hv, hc] at h
        cases ha : assign_digit p pos c with
        | ok q1 =>
          rw [ha] at h
          simp at h
          exact ih q1 true q b h ((assign_digit_props ha).2.1 hSE)
        | error e =>
          rw [ha] at h
          simp at h
      · simp only [sweepCells, hv, hc] at h
        exact ih p prog q b h hSE

theorem scanLoop_solvedEmpty :
    ∀ (n : Nat) (p : Puzzle) (p' : Puzzle),
      scanLoop n p = .ok p' → SolvedEmpty p → SolvedEmpty p' := by
  intro n
  induction n with
  | zero =>
    intro p p' h
    simp [scanLoop] at h
  | succ n ih =>
    intro p p' h hSE
    simp only [scanLoop] at h
    cases hs : sweepCells p allPositions false with
    | ok qb =>
      obtain ⟨q, b⟩ := qb
      have hq : SolvedEmpty q := sweepCells_solvedEmpty allPositions p false q b hs hSE
      rw [hs] at h
      cases b with
      | false => simp at h; subst h; exact hq
      | true => simp at h; exact ih q p' h hq
    | error e =>
      rw [hs] at h
      simp at h

/-! ## `computeCandidates` lemmas -/

theorem computeCandidates_value (p : Puzzle) (pos : Pos) :
    ((computeCandidates p) pos).value = (p pos).value := by
  unfold computeCandidates
  cases h : (p pos).value <;> simp [h]

theorem computeCandidates_mem_candidates (p : Puzzle) (pos : Pos)
    (hv : (p pos).value = none) (d : Nat) :
    d ∈ ((computeCandidates p) pos).candidates ↔
      1 ≤ d ∧ d ≤ 9 ∧ ∀ peer ∈ unitsForPos pos, (p peer).value ≠ some d := by
  unfold computeCandidates
  rw [hv]
  simp only [List.mem_filter, List.mem_range'_1, Bool.not_eq_true', List.any_eq_false,
    decide_eq_false_iff_not]
  constructor
  · rintro ⟨⟨h1, h2⟩, h3⟩
    exact ⟨h1, by omega, fun peer hp => by simpa using h3 peer hp⟩
  · rintro ⟨h1, h2, h3⟩
    exact ⟨⟨h1, by omega⟩, fun peer hp => by simpa using h3 peer hp⟩

/-! ## Checker lemmas -/

theorem unitNoDupSolved_iff (p : Puzzle) :
    ∀ (u : List Pos) (seen : List Nat),
      unitNoDupSolved p u seen = true ↔
        (u.filterMap (fun pos => (p pos).value)).Nodup ∧
        ∀ d ∈ u.filterMap (fun pos => (p pos).value), d ∉ seen := by
  intro u
  induction u with
  | nil => intro seen; simp [unitNoDupSolved]
  | cons pos rest ih =>
    intro seen
    cases hv : (p pos).value with
    | none => simp [unitNoDupSolved, hv, ih]
    | some d =>
      by_cases hd : d ∈ seen
      · simp only [unitNoDupSolved, hv, hd, if_true, if_pos]
        constructor
        · intro hfalse; cases hfalse
        · rintro ⟨_, hall⟩
          exact absurd hd (hall d (by simp [hv]))
      · simp only [unitNoDupSolved, hv, hd, if_false, if_neg, not_false_iff]
        rw [ih (d :: seen)]
        simp only [List.filterMap_cons, hv, List.nodup_cons, List.mem_cons]
        constructor
        · rintro ⟨hnd, hall⟩
          refine ⟨⟨fun hmem => (hall d hmem) (Or.inl rfl), hnd⟩, ?_⟩
          intro x hx
          rcases hx with rfl | hx
          · exact hd
          · exact fun hxseen => hall x hx (Or.inr hxseen)
        · rintro ⟨⟨hdv, hnd⟩, hall⟩
          refine ⟨hnd, fun x hx hmem => ?_⟩
          rcases hmem with rfl | hxseen
          · exact hdv hx
          · exact hall x (Or.inr hx) hxseen

theorem count_filterMap_values (p : Puzzle) (u : List Pos) (d : Nat) :
    (u.filterMap (fun pos => (p pos).value)).count d =
      u.countP (fun pos => decide ((p pos).value = some d)) := by
  induction u with
  | nil => rfl
  | cons pos rest ih =>
    cases hv : (p pos).value with
    | none => simp [hv, ih, List.countP_cons]
    | some v =>
      by_cases hvd : v = d
      · subst hvd
        simp [hv, List.count_cons, List.countP_cons, ih]
      · simp [hv, List.count_cons, List.countP_cons, ih, hvd, Ne.symm hvd]

/-! ## Cell-reference parser lemmas -/

theorem takeDigits_digits_cons (ds : List Char) (hds : ∀ ch ∈ ds, ch.isDigit = true)
    (ch0 : Char) (h0 : ch0.isDigit = false) (tail : List Char) :
    takeDigits (ds ++ ch0 :: tail) = (ds, ch0 :: tail) := by
  induction ds with
  | nil => simp [takeDigits, h0]
  | cons a t ih =>
    have ha : a.isDigit = true := hds a (List.mem_cons_self _ _)
    have ht := ih (fun ch hch => hds ch (List.mem_cons_of_mem _ hch))
    simp [takeDigits, ha, ht]

theorem takeDigits_all_digits (ds : List Char) (hds : ∀ ch ∈ ds, ch.isDigit = true) :
    takeDigits ds = (ds, []) := by
  induction ds with
  | nil => simp [takeDigits]
  | cons a t ih =>
    have ha : a.isDigit = true := hds a (List.mem_cons_self _ _)
    have ht := ih (fun ch hch => hds ch (List.mem_cons_of_mem _ hch))
    simp [takeDigits, ha, ht]

theorem takeDigits_sound :
    ∀ (l ds rest : List Char), takeDigits l = (ds, rest) →
      l = ds ++ rest ∧ (∀ ch ∈ ds, ch.isDigit = true) ∧
      ∀ ch tail, rest = ch :: tail → ch.isDigit = false := by
  intro l
  induction l with
  | nil =>
    intro ds rest h
    simp only [takeDigits] at h
    cases h
    exact ⟨rfl, by simp, by intro ch tail h; cases h⟩
  | cons a t ih =>
    intro ds rest h
    by_cases ha : a.isDigit
    · rcases hT : takeDigits t with ⟨ds', rest'⟩
      simp only [takeDigits, ha, if_true, if_pos, hT] at h
      cases h
      obtain ⟨he, hds, hrest⟩ := ih _ _ hT
      refine ⟨by rw [he]; rfl, ?_, hrest⟩
      intro ch hch
      rcases List.mem_cons.mp hch with rfl | hch'
      · exact ha
      · exact hds ch hch'
    · rw [Bool.not_eq_true] at ha
      simp only [takeDigits, ha, Bool.false_eq_true, if_false, if_neg, not_false_iff] at h
      cases h
      refine ⟨rfl, by simp, ?_⟩
      intro ch tail h
      cases h
      exact ha

theorem matchCellRef_isSome_iff (l : List Char) :
    (matchCellRef l).isSome = true ↔
      ∃ ds1 ds2 rest, l = 'R' :: (ds1 ++ 'C' :: (ds2 ++ rest)) ∧
        ds1 ≠ [] ∧ ds2 ≠ [] ∧
        (∀ ch ∈ ds1, ch.isDigit = true) ∧ (∀ ch ∈ ds2, ch.isDigit = true) := by
  constructor
  · intro h
    cases l with
    | nil => simp [matchCellRef] at h
    | cons a t =>
      by_cases haR : a = 'R'
      · subst haR
        rcases hT : takeDigits t with ⟨ds1, rest1⟩
        obtain ⟨he1, hds1, hstop1⟩ := takeDigits_sound t ds1 rest1 hT
        simp only [matchCellRef, if_pos rfl, hT] at h
        by_cases h1 : ds1 = []
        · simp [h1] at h
        · simp only [h1, if_false, if_neg, not_false_iff] at h
          cases rest1 with
          | nil => simp at h
          | cons c1 rest2 =>
            by_cases hcC : c1 = 'C'
            · subst hcC
              rcases hT2 : takeDigits rest2 with ⟨ds2, rest'⟩
              obtain ⟨he2, hds2, _⟩ := takeDigits_sound rest2 ds2 rest' hT2
              simp only [hT2] at h
              by_cases h2 : ds2 = []
              · simp [h2] at h
              · refine ⟨ds1, ds2, rest', ?_, h1, h2, hds1, hds2⟩
                rw [he1, he2]
            · simp [hcC] at h
      · simp [matchCellRef, haR] at h
  · rintro ⟨ds1, ds2, rest, rfl, h1, h2, hd1, hd2⟩
    obtain ⟨e, es, rfl⟩ := List.exists_cons_of_ne_nil h2
    have hTake1 : takeDigits (ds1 ++ 'C' :: e :: (es ++ rest)) =
        (ds1, 'C' :: e :: (es ++ rest)) :=
      takeDigits_digits_cons ds1 hd1 'C' rfl (e :: (es ++ rest))
    have hed : e.isDigit = true := hd2 e (List.mem_cons_self _ _)
    simp [matchCellRef, hTake1, h1, takeDigits, hed]

theorem except_isOk_ok {ε α : Type} (x : α) : (Except.ok x : Except ε α).isOk = true := rfl

theorem except_isOk_error {ε α : Type} (e : ε) :
    (Except.error e : Except ε α).isOk = false := rfl

theorem computeCandidates_unsolved_candidates (p : Puzzle) (pos : Pos)
    (hv : (p pos).value = none) :
    ((computeCandidates p) pos).candidates =
      (List.range' 1 9).filter
        (fun d => !((unitsForPos pos).any
          (fun peer => decide ((p peer).value = some d)))) := by
  simp [computeCandidates, hv]

/-! ## Claim theorems -/

/-- C1: for every puzzle, after `computeCandidates` runs, every Solved cell
has an empty candidate set and every Unsolved cell's candidate set equals
`{1..9}` minus the solved values held by cells of its row, column and block;
consequently no Unsolved cell's candidate set contains a digit held by a
Solved peer in any of its three units. -/
theorem C1_computeCandidates_sound (p : Puzzle) (pos : Pos) :
    (∀ v, (p pos).value = some v → ((computeCandidates p) pos).candidates = []) ∧
    ((p pos).value = none →
      (∀ d, d ∈ ((computeCandidates p) pos).candidates ↔
        1 ≤ d ∧ d ≤ 9 ∧ ∀ peer ∈ unitsForPos pos, (p peer).value ≠ some d) ∧
      ∀ peer ∈ unitsForPos pos, ∀ d,
        ((computeCandidates p) peer).value = some d →
        d ∉ ((computeCandidates p) pos).candidates) := by
  constructor
  · intro v hv
    simp [computeCandidates, hv]
  · intro hv
    refine ⟨computeCandidates_mem_candidates p pos hv, ?_⟩
    intro peer hpeer d hd hmem
    rw [computeCandidates_value] at hd
    exact ((computeCandidates_mem_candidates p pos hv d).mp hmem).2.2 peer hpeer hd

/-- Witness for C1 at a concrete puzzle and cell. -/
theorem C1_computeCandidates_sound_witness :
    5 ∈ ((computeCandidates emptyPuzzle) ((1 : Nat), (1 : Nat))).candidates :=
  (((C1_computeCandidates_sound emptyPuzzle ((1 : Nat), (1 : Nat))).2 rfl).1 5).mpr
    (by decide)

/-- C3: whenever `assign`'s preconditions hold (cell present, Unsolved, digit
among its candidates), the cascade returns successfully within the depth
bound 81 built into `assign_digit` (so the recursion cannot run forever), and
the resulting puzzle has strictly fewer Unsolved cells. -/
theorem C3_assign_terminates_and_decreases (p : Puzzle) (pos : Pos) (digit : Nat)
    (hmem : pos ∈ allPositions) (hv : (p pos).value = none)
    (hd : digit ∈ (p pos).candidates) :
    ∃ p', assign_digit p pos digit = .ok p' ∧
      unsolvedCount p' < unsolvedCount p := by
  obtain ⟨p', hp'⟩ := assignDigitFuel_ok 81 p pos digit hmem hv hd (unsolvedCount_le_81 p)
  exact ⟨p', hp', (assignDigitFuel_props 81 p pos digit p' hp').2.2.2.2⟩

/-- Witness for C3 at a concrete puzzle. -/
theorem C3_assign_terminates_and_decreases_witness :
    ∃ p', assign_digit singleCandPuzzle ((1 : Nat), (1 : Nat)) 5 = .ok p' ∧
      unsolvedCount p' < unsolvedCount singleCandPuzzle :=
  C3_assign_terminates_and_decreases singleCandPuzzle ((1 : Nat), (1 : Nat)) 5
    (by decide) rfl (by decide)

/-- C4: each core operation (`computeCandidates`, `assign`, `eliminate`,
`scanAndAssign`) preserves the invariant that every Solved cell's candidate
set is empty. -/
theorem C4_solvedEmpty_preserved (p : Puzzle) (hSE : SolvedEmpty p) :
    SolvedEmpty (computeCandidates p) ∧
    (∀ pos digit p', assign_digit p pos digit = .ok p' → SolvedEmpty p') ∧
    (∀ pos digit p', eliminate_digit p pos digit = .ok p' → SolvedEmpty p') ∧
    (∀ p', scan_and_assign p = .ok p' → SolvedEmpty p') := by
  refine ⟨?_, ?_, ?_, ?_⟩
  · intro pos _ hd
    cases hpv : (p pos).value with
    | some v => simp [computeCandidates, hpv]
    | none =>
      rw [computeCandidates_value p pos, hpv] at hd
      exact absurd rfl hd
  · intro pos digit p' h
    exact (assign_digit_props h).2.1 hSE
  · intro pos digit p' h
    by_cases hmem : pos ∈ allPositions
    · cases hv : (p pos).value with
      | some v => simp [eliminate_digit, hmem, hv] at h
      | none =>
        by_cases hd : digit ∈ (p pos).candidates
        · simp [eliminate_digit, hmem, hv, hd] at h
          subst h
          exact solvedEmpty_updateUnsolvedCands hSE
        · simp [eliminate_digit, hmem, hv, hd] at h
          subst h
          exact hSE
    · simp [eliminate_digit, hmem] at h
  · intro p' h
    exact scanLoop_solvedEmpty 82 p p' h hSE

/-- Witness for C4 at a concrete puzzle. -/
theorem C4_solvedEmpty_preserved_witness : SolvedEmpty (computeCandidates emptyPuzzle) :=
  (C4_solvedEmpty_preserved emptyPuzzle (fun _ _ h => absurd rfl h)).1

/-- C9: `eliminate` on an Unsolved cell with a digit absent from its candidate
list is a silent no-op in both source copies: no error, state unchanged. -/
theorem C9_eliminate_noop (p : Puzzle) (pos : Pos) (digit : Nat)
    (hmem : pos ∈ allPositions) (hv : (p pos).value = none)
    (hd : digit ∉ (p pos).candidates) :
    eliminate_digit p pos digit = .ok p ∧ eliminate_digit_ms p pos digit = .ok p := by
  constructor
  · simp [eliminate_digit, hmem, hv, hd]
  · simp [eliminate_digit_ms, hmem, hv, hd]

/-- Witness for C9 at a concrete puzzle. -/
theorem C9_eliminate_noop_witness :
    eliminate_digit emptyPuzzle ((1 : Nat), (1 : Nat)) 5 = .ok emptyPuzzle ∧
    eliminate_digit_ms emptyPuzzle ((1 : Nat), (1 : Nat)) 5 = .ok emptyPuzzle :=
  C9_eliminate_noop emptyPuzzle ((1 : Nat), (1 : Nat)) 5 (by decide) rfl (by decide)

/-- C10: `computeCandidates` is idempotent: recomputation depends only on
solved values, which it never modifies. -/
theorem C10_computeCandidates_idempotent (p : Puzzle) :
    computeCandidates (computeCandidates p) = computeCandidates p := by
  funext pos
  cases hv : (p pos).value with
  | some v =>
    simp [computeCandidates, hv]
  | none =>
    have hv1 : ((computeCandidates p) pos).value = none := by
      rw [computeCandidates_value p pos, hv]
    apply Cell.ext
    · rw [computeCandidates_value (computeCandidates p) pos,
        computeCandidates_value p pos]
    · rw [computeCandidates_unsolved_candidates (computeCandidates p) pos hv1,
        computeCandidates_unsolved_candidates p pos hv]
      apply List.filter_congr
      intro d _
      simp [computeCandidates_value]

/-- Witness for C10 at a concrete puzzle. -/
theorem C10_computeCandidates_idempotent_witness :
    computeCandidates (computeCandidates emptyPuzzle) = computeCandidates emptyPuzzle :=
  C10_computeCandidates_idempotent emptyPuzzle

/-- C2 counterexample: in `src/python/sudoku.py`, eliminating `1` from a cell
with candidates `[1, 2]` leaves the cell Unsolved with the single candidate
`[2]` — no `assign` cascade happens, contrary to the claim (which holds only
for the `src/backend/sudoku_ms.py` copy). -/
theorem C2_counterexample :
    (eliminate_digit elimTwoPuzzle ((1 : Nat), (1 : Nat)) 1).map
      (fun q => ((q ((1 : Nat), (1 : Nat))).value, (q ((1 : Nat), (1 : Nat))).candidates)) =
    .ok (none, [2]) := by
  rfl

/-- C2 (amended): eliminating a present digit from an Unsolved cell removes
it; the `sudoku_ms.py` copy then assigns the sole remaining candidate (full
cascade) when exactly one is left, while the `sudoku.py` copy leaves the cell
Unsolved with the digit merely removed. -/
theorem C2_eliminate_behaviour (p : Puzzle) (pos : Pos) (digit : Nat)
    (hmem : pos ∈ allPositions) (hv : (p pos).value = none)
    (hd : digit ∈ (p pos).candidates) :
    (∃ p₁, eliminate_digit p pos digit = .ok p₁ ∧ (p₁ pos).value = none ∧
      (p₁ pos).candidates = (p pos).candidates.erase digit) ∧
    (∀ sole, (p pos).candidates.erase digit = [sole] →
      ∃ p₂, eliminate_digit_ms p pos digit = .ok p₂ ∧ (p₂ pos).value = some sole) := by
  constructor
  · refine ⟨updateCell p pos
      { value := none, candidates := (p pos).candidates.erase digit }, ?_, ?_, ?_⟩
    · simp [eliminate_digit, hmem, hv, hd]
    · rw [updateCell_same]
    · rw [updateCell_same]
  · intro sole hE
    have hq : ((updateCell p pos { value := none, candidates := [sole] }) pos).value =
        none := by rw [updateCell_same]
    have hqc : sole ∈
        ((updateCell p pos { value := none, candidates := [sole] }) pos).candidates := by
      rw [updateCell_same]
      exact List.mem_singleton_self _
    obtain ⟨p₂, hp₂⟩ := assignDigitFuel_ok 81
      (updateCell p pos { value := none, candidates := [sole] }) pos sole
      hmem hq hqc (unsolvedCount_le_81 _)
    refine ⟨p₂, ?_, (assignDigitFuel_props 81 _ _ _ _ hp₂).2.2.2.1⟩
    simp only [eliminate_digit_ms, hmem, if_true, if_pos, hv, hd, hE]
    exact hp₂

/-- Witness for the amended C2 at a concrete puzzle. -/
theorem C2_eliminate_behaviour_witness :
    (∃ p₁, eliminate_digit elimTwoPuzzle ((1 : Nat), (1 : Nat)) 1 = .ok p₁ ∧
      (p₁ ((1 : Nat), (1 : Nat))).value = none ∧
      (p₁ ((1 : Nat), (1 : Nat))).candidates =
        (elimTwoPuzzle ((1 : Nat), (1 : Nat))).candidates.erase 1) ∧
    (∀ sole, (elimTwoPuzzle ((1 : Nat), (1 : Nat))).candidates.erase 1 = [sole] →
      ∃ p₂, eliminate_digit_ms elimTwoPuzzle ((1 : Nat), (1 : Nat)) 1 = .ok p₂ ∧
        (p₂ ((1 : Nat), (1 : Nat))).value = some sole) :=
  C2_eliminate_behaviour elimTwoPuzzle ((1 : Nat), (1 : Nat)) 1 (by decide) rfl (by decide)

/-- C5 counterexample: `get_units_for_cell "R10C1"` succeeds although
`"R10C1"` is not of the exact `R<1-9>C<1-9>` shape, because the source regex
`R(\d+)C(\d+)` is unanchored and accepts multi-digit indices. -/
theorem C5_counterexample :
    (get_units_for_cell "R10C1").isOk = true ∧ ¬ ExactCellRefShape "R10C1" := by
  exact ⟨rfl, by unfold ExactCellRefShape; decide⟩

/-- C5 (amended): `get_units_for_cell` fails with `InvalidReference` iff the
string does not start with `R`, one or more digits, `C`, one or more digits
(arbitrary suffix allowed); on every reference of the exact `R<1-9>C<1-9>`
shape it succeeds and returns the cell's row, column and block units of 9
identifiers each. -/
theorem C5_units_for_cell :
    (∀ s : String, (get_units_for_cell s).isOk = true ↔ CellRefPat s) ∧
    (∀ r ∈ List.range' 1 9, ∀ c ∈ List.range' 1 9,
      get_units_for_cell (cellKey r c) = .ok
        { row := (List.range' 1 9).map (fun c' => cellKey r c'),
          col := (List.range' 1 9).map (fun r' => cellKey r' c),
          block :=
            (List.range' ((r - 1) / 3 * 3 + 1) 3).flatMap (fun br =>
              (List.range' ((c - 1) / 3 * 3 + 1) 3).map (fun bc => cellKey br bc)) }) := by
  constructor
  · intro s
    have hok : (get_units_for_cell s).isOk = (matchCellRef s.data).isSome := by
      unfold get_units_for_cell
      cases hm : matchCellRef s.data with
      | none => rfl
      | some rc =>
        obtain ⟨a, b⟩ := rc
        rfl
    rw [hok]
    exact matchCellRef_isSome_iff s.data
  · decide

/-- Witness for the amended C5 at a concrete reference. -/
theorem C5_units_for_cell_witness : (get_units_for_cell "R3C5").isOk = true :=
  (C5_units_for_cell.1 "R3C5").mpr
    ⟨['3'], ['5'], [], rfl, by decide, by decide, by decide, by decide⟩

/-- C6 counterexample: `get_unit` on the out-of-range unit references `"R10"`
and `"B0"` succeeds (returning an empty mapping, because the generated keys
are filtered by dict membership) instead of failing as the claim states. -/
theorem C6_counterexample :
    (get_unit emptyPuzzle "R10").isOk = true ∧ (get_unit emptyPuzzle "B0").isOk = true :=
  ⟨rfl, rfl⟩

/-- C6 (amended): `get_unit` fails iff the tag (first character,
case-insensitive) is not `R`, `C` or `B`, or the index substring is not an
integer literal; a parsed but out-of-range index succeeds, returning only the
cells actually present — none at all for `"R10"` or `"B0"`. -/
theorem C6_get_unit_failure :
    (∀ (p : Puzzle) (ch : Char) (rest : List Char),
      (get_unit p (String.mk (ch :: rest))).isOk = true ↔
        (pyToInt? rest).isSome = true ∧
        (ch.toUpper = 'R' ∨ ch.toUpper = 'C' ∨ ch.toUpper = 'B')) ∧
    (∀ p : Puzzle, get_unit p "R10" = .ok [] ∧ get_unit p "B0" = .ok []) := by
  constructor
  · intro p ch rest
    cases hI : pyToInt? rest with
    | none => simp [get_unit, hI, except_isOk_error]
    | some i =>
      by_cases hR : ch.toUpper = 'R'
      · simp [get_unit, hI, hR, except_isOk_ok]
      · by_cases hC : ch.toUpper = 'C'
        · simp [get_unit, hI, hR, hC, except_isOk_ok]
        · by_cases hB : ch.toUpper = 'B'
          · simp [get_unit, hI, hR, hC, hB, except_isOk_ok]
          · simp [get_unit, hI, hR, hC, hB, except_isOk_error]
  · intro p
    exact ⟨rfl, rfl⟩

/-- Witness for the amended C6 at a concrete reference. -/
theorem C6_get_unit_failure_witness :
    (get_unit emptyPuzzle (String.mk ['C', '7'])).isOk = true :=
  (C6_get_unit_failure.1 emptyPuzzle 'C' ['7']).mpr (by decide)

/-- C7: `checkStrict` returns true exactly when no solved digit occurs more
than once within any of the 27 units; in particular it accepts the canonical
fully solved grid and rejects a grid with two `5`s in the same row. -/
theorem C7_check_strict :
    (∀ p : Puzzle, check_strict_consistency p = true ↔
      ∀ u ∈ allUnitCellSets, ∀ d : Nat,
        u.countP (fun pos => decide ((p pos).value = some d)) ≤ 1) ∧
    check_strict_consistency solvedGrid = true ∧
    check_strict_consistency twoFivesGrid = false := by
  refine ⟨fun p => ?_, by decide, by decide⟩
  unfold check_strict_consistency
  rw [List.all_eq_true]
  constructor
  · intro h u hu d
    have h1 := (unitNoDupSolved_iff p u []).mp (h u hu)
    have h2 := List.nodup_iff_count_le_one.mp h1.1 d
    rwa [count_filterMap_values] at h2
  · intro h u hu
    rw [unitNoDupSolved_iff]
    refine ⟨List.nodup_iff_count_le_one.mpr (fun d => ?_), by simp⟩
    rw [count_filterMap_values]
    exact h u hu d

/-- Witness for C7: the canonical solved grid passes the strict check. -/
theorem C7_check_strict_witness : check_strict_consistency solvedGrid = true :=
  C7_check_strict.2.1

/-- C8: `checkCandidateCoverage` returns true iff in each of the 27 units
every digit `1..9` is either solved there or pencilled in some Unsolved
member; in particular it returns false whenever digit 7 is neither solved in
row `R1` nor present in any Unsolved `R1` cell's candidates. -/
theorem C8_check_candidate_coverage (p : Puzzle) :
    (check_candidate_consistency p = true ↔
      ∀ u ∈ allUnitCellSets, ∀ d : Nat, 1 ≤ d → d ≤ 9 →
        ((∃ pos ∈ u, (p pos).value = some d) ∨
         ∃ pos ∈ u, (p pos).value = none ∧ d ∈ (p pos).candidates)) ∧
    ((∀ pos ∈ rowUnit 1, (p pos).value ≠ some 7) →
     (∀ pos ∈ rowUnit 1, 7 ∉ (p pos).candidates) →
     check_candidate_consistency p = false) := by
  have hiff : check_candidate_consistency p = true ↔
      ∀ u ∈ allUnitCellSets, ∀ d : Nat, 1 ≤ d → d ≤ 9 →
        ((∃ pos ∈ u, (p pos).value = some d) ∨
         ∃ pos ∈ u, (p pos).value = none ∧ d ∈ (p pos).candidates) := by
    unfold check_candidate_consistency
    rw [List.all_eq_true]
    constructor
    · intro h u hu d h1 h9
      have hall := h u hu
      rw [List.all_eq_true] at hall
      have hd := hall d (by rw [List.mem_range'_1]; omega)
      rw [Bool.or_eq_true] at hd
      rcases hd with hd | hd
      · left
        rw [decide_eq_true_eq, List.mem_filterMap] at hd
        exact hd
      · right
        rw [List.any_eq_true] at hd
        obtain ⟨pos, hpos, hP⟩ := hd
        rw [decide_eq_true_eq] at hP
        exact ⟨pos, hpos, hP⟩
    · intro h u hu
      rw [List.all_eq_true]
      intro d hdmem
      rw [List.mem_range'_1] at hdmem
      rw [Bool.or_eq_true]
      rcases h u hu d (by omega) (by omega) with ⟨pos, hpos, hval⟩ | ⟨pos, hpos, hv, hc⟩
      · left
        rw [decide_eq_true_eq, List.mem_filterMap]
        exact ⟨pos, hpos, hval⟩
      · right
        rw [List.any_eq_true]
        exact ⟨pos, hpos, by rw [decide_eq_true_eq]; exact ⟨hv, hc⟩⟩
  refine ⟨hiff, ?_⟩
  intro h7v h7c
  cases hb : check_candidate_consistency p with
  | false => rfl
  | true =>
    exfalso
    rcases hiff.mp hb (rowUnit 1) (by decide) 7 (by omega) (by omega) with
      ⟨pos, hpos, hval⟩ | ⟨pos, hpos, _, hc⟩
    · exact h7v pos hpos hval
    · exact h7c pos hpos hc

/-- Witness for C8 at a concrete puzzle: the blank puzzle has no coverage for
digit 7 in row `R1`, so the check fails. -/
theorem C8_check_candidate_coverage_witness :
    check_candidate_consistency emptyPuzzle = false :=
  (C8_check_candidate_coverage emptyPuzzle).2 (by decide) (by decide)

end Sudoku
